import Mathlib

/-!
Verification of the OccuProb superposition-approximation core against its
stated specification.  The Python source (occuprob.utils,
occuprob.partitionfunctions, occuprob.superpositions) is shallowly embedded:
numpy float arrays become lists over an extended-real carrier `F` with
IEEE-style infinities and NaN, and every masked (`where=` / `out=`) numpy
operation is translated mask-for-mask.
-/

/-- Extended-real carrier modelling IEEE double values exactly: a finite
real, plus positive infinity, negative infinity and NaN. -/
inductive F where
  | fin : ℝ → F
  | pinf : F
  | ninf : F
  | nan : F

open F

/-- IEEE negation. -/
def fneg : F → F
  | fin x => fin (-x)
  | pinf => ninf
  | ninf => pinf
  | nan => nan

/-- IEEE addition: same-signed infinities absorb, opposite infinities give
NaN, NaN is absorbing. -/
def fadd : F → F → F
  | nan, _ => nan
  | _, nan => nan
  | fin x, fin y => fin (x + y)
  | fin _, pinf => pinf
  | pinf, fin _ => pinf
  | fin _, ninf => ninf
  | ninf, fin _ => ninf
  | pinf, pinf => pinf
  | ninf, ninf => ninf
  | pinf, ninf => nan
  | ninf, pinf => nan

open Classical in
/-- IEEE multiplication: zero times an infinity is NaN, otherwise signs
multiply; NaN is absorbing. -/
noncomputable def fmul : F → F → F
  | nan, _ => nan
  | _, nan => nan
  | fin x, fin y => fin (x * y)
  | fin x, pinf => if x = 0 then nan else if 0 < x then pinf else ninf
  | pinf, fin y => if y = 0 then nan else if 0 < y then pinf else ninf
  | fin x, ninf => if x = 0 then nan else if 0 < x then ninf else pinf
  | ninf, fin y => if y = 0 then nan else if 0 < y then ninf else pinf
  | pinf, pinf => pinf
  | pinf, ninf => ninf
  | ninf, pinf => ninf
  | ninf, ninf => pinf

open Classical in
/-- IEEE division: finite over zero is a signed infinity (NaN for zero over
zero), finite over infinity is zero, infinity over infinity is NaN. -/
noncomputable def fdiv : F → F → F
  | nan, _ => nan
  | _, nan => nan
  | fin x, fin y =>
      if y = 0 then (if x = 0 then nan else if 0 < x then pinf else ninf)
      else fin (x / y)
  | fin _, pinf => fin 0
  | fin _, ninf => fin 0
  | pinf, fin y => if 0 ≤ y then pinf else ninf
  | ninf, fin y => if 0 ≤ y then ninf else pinf
  | pinf, pinf => nan
  | pinf, ninf => nan
  | ninf, pinf => nan
  | ninf, ninf => nan

/-- IEEE exponential: exp(-inf) = 0, exp(inf) = inf. -/
noncomputable def fexp : F → F
  | fin x => fin (Real.exp x)
  | pinf => pinf
  | ninf => fin 0
  | nan => nan

/-- IEEE hyperbolic sine. -/
noncomputable def fsinh : F → F
  | fin x => fin (Real.sinh x)
  | pinf => pinf
  | ninf => ninf
  | nan => nan

/-- IEEE hyperbolic tangent: tanh(inf) = 1. -/
noncomputable def ftanh : F → F
  | fin x => fin (Real.tanh x)
  | pinf => fin 1
  | ninf => fin (-1)
  | nan => nan

/-- IEEE strict order: NaN compares false against everything. -/
def flt : F → F → Prop
  | fin x, fin y => x < y
  | fin _, pinf => True
  | ninf, fin _ => True
  | ninf, pinf => True
  | _, _ => False

noncomputable instance decFlt (a b : F) : Decidable (flt a b) := by
  cases a <;> cases b <;> simp only [flt] <;> infer_instance

/-- Sum of a list of carrier values, mirroring a numpy reduction with
initial value 0. -/
def listFSum (l : List F) : F := l.foldr fadd (fin 0)

/-- Product of a list of carrier values, mirroring a numpy reduction with
initial value 1. -/
noncomputable def listFProd (l : List F) : F := l.foldr fmul (fin 1)

/-- Boltzmann constant in eV/K, from occuprob.utils. -/
noncomputable def KB : ℝ := 8.617333262145e-5

/-- Planck constant in eV/THz, from occuprob.partitionfunctions. -/
noncomputable def H : ℝ := 4.135667696e-3

/-- Elementwise core of occuprob.utils.calc_beta: np.divide(1, KB*T,
where=T>0, out=inf) — the reciprocal temperature where T is positive and
the fallback +inf everywhere the mask fails (T = 0, negative T, NaN). -/
noncomputable def betaOfF (t : F) : F :=
  if flt (fin 0) t then fdiv (fin 1) (fmul (fin KB) t) else pinf

/-- occuprob.utils.calc_beta applied to a temperature grid. -/
noncomputable def calc_beta (temperature : List F) : List F :=
  temperature.map betaOfF

open Classical in
/-- Modelled from the spec: occuprob.partitionfunctions imports
`calc_exponent` from occuprob.utils, but that function is absent from the
sources; only its callers are present.  The spec describes it as
maskedExponent(energy, T): energy times beta elementwise, with the product
forced to 0 wherever energy is nonpositive.  This is its elementwise core
for one energy and one temperature. -/
noncomputable def maskedExpEntry (e : ℝ) (t : F) : F :=
  if e ≤ 0 then fin 0 else fmul (fin e) (betaOfF t)

/-- Modelled from the spec: the array form of the missing
occuprob.utils.calc_exponent, one row per energy, one column per
temperature. -/
noncomputable def calc_exponent (energy : List ℝ) (temperature : List F) :
    List (List F) :=
  energy.map (fun e => temperature.map (maskedExpEntry e))

open Classical in
/-- Elementwise core of the masked logarithm in
occuprob.utils.calc_geometric_mean: np.log(x, where=x>0, out=-inf). -/
noncomputable def maskedLog (x : ℝ) : F :=
  if 0 < x then fin (Real.log x) else ninf

/-- occuprob.utils.calc_geometric_mean: per-row exp(mean(log)) with the
masked logarithm, so any row holding a nonpositive entry sends the mean to
-inf and the exponential to 0. -/
noncomputable def calc_geometric_mean (in_array : List (List ℝ)) : List F :=
  in_array.map (fun row =>
    fexp (fdiv (listFSum (row.map maskedLog)) (fin (row.length : ℝ))))

/-- Smallest element of a list of reals, mirroring np.amin on the
(nonempty) potential-energy array. -/
noncomputable def listMin (l : List ℝ) : ℝ := l.foldr min (l.headD 0)

/-- Relative energies as computed in ElectronicPF.__init__:
potential_energy - np.amin(potential_energy). -/
noncomputable def relative_energy (potential_energy : List ℝ) : List ℝ :=
  potential_energy.map (fun e => e - listMin potential_energy)

/-- The closed set of partition-function variants of
occuprob.partitionfunctions, as a tagged sum.  Each constructor carries the
arrays stored by the corresponding Python __init__. -/
inductive PF where
  | electronic (potential_energy : List ℝ) (spin_multiplicity : List ℝ)
  | rotational (symmetry_order : List ℝ) (moments : List (List ℝ))
  | classicalHarmonic (frequencies : List (List ℝ))
  | quantumHarmonic (frequencies : List (List ℝ))

open Classical in
/-- One row of the moments-of-inertia clamp in RotationalPF.__init__:
np.where(moments > 0, moments, 1). -/
noncomputable def clampMomentsRow (row : List ℝ) : List ℝ :=
  row.map (fun x => if 0 < x then x else 1)

/-- Iterated IEEE product x^n, the meaning of np.power with a nonnegative
integer exponent on the carrier. -/
noncomputable def fpowN (x : F) : ℕ → F
  | 0 => fin 1
  | n + 1 => fmul x (fpowN x n)

/-- Number of vibrational modes, frequencies.shape[1] in
ClassicalHarmonicPF.__init__ (numpy rows all share one length; the model
reads the first row). -/
def nVib (frequencies : List (List ℝ)) : ℕ := (frequencies.headD []).length

open Classical in
/-- PF.calc_part_func of each variant, row by row over the grid.
Electronic: spin * exp(-maskedExponent).  Rotational: prod(moments)/sigma,
constant across the grid (the source multiplies by np.ones_like(T) and
never uses beta).  Classical harmonic: gmean^(-n_vib) via np.power,
constant across the grid.  Quantum harmonic: product over modes of
0.5/np.sinh(exponent, where=T>0, out=2). -/
noncomputable def PF.calc_part_func (pf : PF) (temperature : List F) :
    List (List F) :=
  match pf with
  | PF.electronic pe g =>
      List.zipWith
        (fun e gk => temperature.map
          (fun t => fmul (fexp (fneg (maskedExpEntry e t))) (fin gk)))
        (relative_energy pe) g
  | PF.rotational sigma moments =>
      List.zipWith
        (fun m sk => temperature.map
          (fun _ => fdiv (fin ((clampMomentsRow m).foldr (· * ·) 1)) (fin sk)))
        moments sigma
  | PF.classicalHarmonic freqs =>
      (calc_geometric_mean freqs).map
        (fun gm => temperature.map
          (fun _ => fdiv (fin 1) (fpowN gm (nVib freqs))))
  | PF.quantumHarmonic freqs =>
      freqs.map (fun row => temperature.map
        (fun t => listFProd (row.map
          (fun nu => fdiv (fin (1/2))
            (if flt (fin 0) t then fsinh (maskedExpEntry (1/2 * H * nu) t)
             else fin 2)))))

open Classical in
/-- PF.calc_part_func_w of each variant.  Electronic:
-np.multiply(beta, relative_energy, where=relative_energy != 0, out=zeros).
Rotational: -1.5 everywhere.  Classical harmonic: -n_vib everywhere.
Quantum harmonic: sum over modes of np.multiply(exponent, 1/np.tanh(exponent),
where=T>0, out=zeros). -/
noncomputable def PF.calc_part_func_w (pf : PF) (temperature : List F) :
    List (List F) :=
  match pf with
  | PF.electronic pe _ =>
      (relative_energy pe).map (fun e => temperature.map
        (fun t => fneg (if e = 0 then fin 0 else fmul (betaOfF t) (fin e))))
  | PF.rotational sigma _ =>
      sigma.map (fun _ => temperature.map (fun _ => fin (-1.5)))
  | PF.classicalHarmonic freqs =>
      freqs.map (fun _ => temperature.map
        (fun _ => fin (-(nVib freqs : ℝ))))
  | PF.quantumHarmonic freqs =>
      freqs.map (fun row => temperature.map
        (fun t => listFSum (row.map (fun nu =>
          if flt (fin 0) t then
            fmul (maskedExpEntry (1/2 * H * nu) t)
              (fdiv (fin 1) (ftanh (maskedExpEntry (1/2 * H * nu) t)))
          else fin 0))))

open Classical in
/-- PF.calc_part_func_v of each variant.  Electronic: zeros.  Rotational:
the negation of calc_part_func_w, so 1.5.  Classical harmonic: n_vib.
Quantum harmonic: sum over modes of the square of
np.multiply(exponent, 1/np.sinh(exponent), where=T>0, out=zeros). -/
noncomputable def PF.calc_part_func_v (pf : PF) (temperature : List F) :
    List (List F) :=
  match pf with
  | PF.electronic pe _ =>
      (relative_energy pe).map (fun _ => temperature.map (fun _ => fin 0))
  | PF.rotational sigma _ =>
      sigma.map (fun _ => temperature.map (fun _ => fin 1.5))
  | PF.classicalHarmonic freqs =>
      freqs.map (fun _ => temperature.map (fun _ => fin (nVib freqs : ℝ)))
  | PF.quantumHarmonic freqs =>
      freqs.map (fun row => temperature.map
        (fun t => listFSum (row.map (fun nu =>
          let aux : F :=
            if flt (fin 0) t then
              fmul (maskedExpEntry (1/2 * H * nu) t)
                (fdiv (fin 1) (fsinh (maskedExpEntry (1/2 * H * nu) t)))
            else fin 0
          fmul aux aux))))

/-- occuprob.superpositions.SuperpositionApproximation: the methods under
verification read only the registered partition-function list, so the model
carries exactly that list. -/
structure SuperpositionApproximation where
  partition_functions : List PF

/-- Pointwise product of two equally shaped matrices, one step of
np.prod(np.stack(contributions), axis=0). -/
noncomputable def matMul2 (A B : List (List F)) : List (List F) :=
  List.zipWith (List.zipWith fmul) A B

/-- Pointwise sum of two equally shaped matrices. -/
def matAdd2 (A B : List (List F)) : List (List F) :=
  List.zipWith (List.zipWith fadd) A B

/-- Column sums np.sum(A, axis=0) of a stacked nonempty matrix list:
fold of the rows (the empty case is unreachable behind the guard in
calc_partition_functions). -/
def colSums (A : List (List F)) : List F :=
  match A with
  | [] => []
  | r :: rs => rs.foldl (List.zipWith fadd) r

/-- SuperpositionApproximation.calc_partition_functions: returns none when
no contribution is registered (the source prints a message and returns
None), otherwise the pointwise product over contributions of their
calc_part_func matrices. -/
noncomputable def calc_partition_functions (m : SuperpositionApproximation)
    (temperature : List F) : Option (List (List F)) :=
  match m.partition_functions.map (fun pf => pf.calc_part_func temperature) with
  | [] => none
  | c :: cs => some (cs.foldl matMul2 c)

/-- SuperpositionApproximation.calc_probability: each individual partition
function divided by the column-wise total.  When calc_partition_functions
yields None the Python call dies in np.sum; the model propagates none. -/
noncomputable def calc_probability (m : SuperpositionApproximation)
    (temperature : List F) : Option (List (List F)) :=
  (calc_partition_functions m temperature).map (fun Z =>
    Z.map (fun row => List.zipWith fdiv row (colSums Z)))

/-- SuperpositionApproximation.calc_ensemble_average:
np.sum(observable[:, None] * probability, axis=0). -/
noncomputable def calc_ensemble_average (m : SuperpositionApproximation)
    (temperature : List F) (observable : List ℝ) : Option (List F) :=
  (calc_probability m temperature).map (fun P =>
    colSums (List.zipWith (fun o row => row.map (fun p => fmul (fin o) p))
      observable P))

/-- SuperpositionApproximation.calc_heat_capacity exactly as in the source:
np.exp applied elementwise to the probability matrix. -/
noncomputable def calc_heat_capacity (m : SuperpositionApproximation)
    (temperature : List F) : Option (List (List F)) :=
  (calc_probability m temperature).map (fun P => P.map (fun row => row.map fexp))

/-- Probability-weighted ensemble average of an N-by-M matrix observable,
column by column: the bracket operation of the spec heat-capacity formula. -/
noncomputable def ensembleAverageMat (P A : List (List F)) : List F :=
  colSums (List.zipWith (List.zipWith fmul) A P)

/-- Modelled from the spec (refinement comparison for the heat-capacity
claim): heatCapacity(T) in units of kB is the fluctuation identity
avg(V) + avg(W^2) - avg(W)^2, where W and V are the sums over registered
contributions of calc_part_func_w and calc_part_func_v and avg is the
probability-weighted average over minima. -/
noncomputable def calc_heat_capacity_spec (m : SuperpositionApproximation)
    (temperature : List F) : Option (List F) :=
  match m.partition_functions.map (fun pf => pf.calc_part_func_w temperature),
        m.partition_functions.map (fun pf => pf.calc_part_func_v temperature),
        calc_probability m temperature with
  | w :: ws, v :: vs, some P =>
      let W := ws.foldl matAdd2 w
      let V := vs.foldl matAdd2 v
      let W2 := List.zipWith (List.zipWith fmul) W W
      let avgW := ensembleAverageMat P W
      some (List.zipWith fadd (ensembleAverageMat P V)
        (List.zipWith (fun a b => fadd a (fneg b))
          (ensembleAverageMat P W2)
          (List.zipWith fmul avgW avgW)))
  | _, _, _ => none

/-- Python positional-call semantics for ElectronicPF.__init__, which
accepts exactly the two arrays (potential_energy, spin_multiplicity): any
other argument count raises TypeError, modelled as none. -/
def ElectronicPF.fromArgs (args : List (List ℝ)) : Option PF :=
  match args with
  | [pe, g] => some (PF.electronic pe g)
  | _ => none

/-- ClassicalHarmonicSA.__init__ as written in the source: it passes the
three arrays (potential_energy, symmetry_order, spin_multiplicity=ones) to
ElectronicPF, whose constructor takes two, so construction raises
TypeError (none); otherwise it would register the electronic and classical
harmonic contributions. -/
noncomputable def ClassicalHarmonicSA_init (potential_energy : List ℝ)
    (frequencies : List (List ℝ)) (symmetry_order : List ℝ) :
    Option SuperpositionApproximation :=
  (ElectronicPF.fromArgs [potential_energy, symmetry_order,
      potential_energy.map (fun _ => 1)]).map
    (fun e => ⟨[e, PF.classicalHarmonic frequencies]⟩)

/-- Entry (k, j) of a matrix, with NaN marking an out-of-range access. -/
def entry (A : List (List F)) (k j : ℕ) : F := (A.getD k []).getD j nan

/-- Column j of a matrix as a list down the minima axis. -/
def colOf (A : List (List F)) (j : ℕ) : List F :=
  A.map (fun row => row.getD j nan)

lemma fadd_fin_fin (x y : ℝ) : fadd (fin x) (fin y) = fin (x + y) := rfl

lemma fmul_fin_fin (x y : ℝ) : fmul (fin x) (fin y) = fin (x * y) := by
  simp [fmul]

lemma fmul_fin_pinf_pos {x : ℝ} (hx : 0 < x) : fmul (fin x) pinf = pinf := by
  simp [fmul, hx.ne.symm, hx]

lemma fdiv_fin_fin {x y : ℝ} (hy : y ≠ 0) : fdiv (fin x) (fin y) = fin (x / y) := by
  simp [fdiv, hy]

lemma fdiv_fin_pinf (x : ℝ) : fdiv (fin x) pinf = fin 0 := rfl

lemma fexp_fin (x : ℝ) : fexp (fin x) = fin (Real.exp x) := rfl

lemma fexp_ninf : fexp ninf = fin 0 := rfl

lemma fneg_fin (x : ℝ) : fneg (fin x) = fin (-x) := rfl

lemma flt_fin_fin (x y : ℝ) : flt (fin x) (fin y) ↔ x < y := Iff.rfl

lemma KB_pos : 0 < KB := by norm_num [KB]

lemma betaOfF_fin_pos {t : ℝ} (ht : 0 < t) :
    betaOfF (fin t) = fin (1 / (KB * t)) := by
  have hk : KB * t ≠ 0 := (mul_pos KB_pos ht).ne'
  simp [betaOfF, flt, ht, fmul_fin_fin, fdiv_fin_fin hk]

lemma betaOfF_fin_nonpos {t : ℝ} (ht : ¬ 0 < t) : betaOfF (fin t) = pinf := by
  simp [betaOfF, flt, ht]

lemma betaOfF_pinf : betaOfF pinf = fin 0 := by
  simp [betaOfF, flt, fmul_fin_pinf_pos KB_pos, fdiv_fin_pinf]

lemma maskedExpEntry_nonpos {e : ℝ} (he : e ≤ 0) (t : F) :
    maskedExpEntry e t = fin 0 := by
  simp [maskedExpEntry, he]

lemma maskedExpEntry_pos_zeroT {e : ℝ} (he : 0 < e) :
    maskedExpEntry e (fin 0) = pinf := by
  simp [maskedExpEntry, not_le.mpr he, betaOfF_fin_nonpos (lt_irrefl (0:ℝ)),
    fmul_fin_pinf_pos he]

lemma maskedExpEntry_pos_pinf {e : ℝ} (he : 0 < e) :
    maskedExpEntry e pinf = fin 0 := by
  simp [maskedExpEntry, not_le.mpr he, betaOfF_pinf, fmul_fin_fin]

lemma maskedExpEntry_pos_posT {e t : ℝ} (he : 0 < e) (ht : 0 < t) :
    maskedExpEntry e (fin t) = fin (e / (KB * t)) := by
  rw [maskedExpEntry, if_neg (not_le.mpr he), betaOfF_fin_pos ht, fmul_fin_fin,
    mul_one_div]

lemma getD_map' {α β : Type} (f : α → β) (l : List α) (i : ℕ)
    (h : i < l.length) (d : β) (d2 : α) : (l.map f).getD i d = f (l.getD i d2) := by
  induction l generalizing i with
  | nil => simp at h
  | cons x xs ih =>
    cases i with
    | zero => rfl
    | succ n =>
      simp only [List.map_cons, List.getD_cons_succ]
      exact ih n (by simpa using h)

lemma getD_zipWith' {α β γ : Type} (f : α → β → γ) (xs : List α) (ys : List β)
    (i : ℕ) (hx : i < xs.length) (hy : i < ys.length) (d : γ) (dx : α) (dy : β) :
    (List.zipWith f xs ys).getD i d = f (xs.getD i dx) (ys.getD i dy) := by
  induction xs generalizing ys i with
  | nil => simp at hx
  | cons x xs ih =>
    cases ys with
    | nil => simp at hy
    | cons y ys =>
      cases i with
      | zero => rfl
      | succ n =>
        simp only [List.zipWith_cons_cons, List.getD_cons_succ]
        exact ih ys n (by simpa using hx) (by simpa using hy)


/-- Shape predicate: an N-by-M numpy array as a list of N rows of length M. -/
def Shape (A : List (List F)) (N M : ℕ) : Prop :=
  A.length = N ∧ ∀ r ∈ A, r.length = M

lemma Shape.row_len {A : List (List F)} {N M k : ℕ} (h : Shape A N M)
    (hk : k < N) : (A.getD k []).length = M := by
  have hk2 : k < A.length := h.1 ▸ hk
  rw [List.getD_eq_getElem _ _ hk2]
  exact h.2 _ (List.getElem_mem hk2)

lemma mem_zipWith_exists {α β γ : Type} {f : α → β → γ} {xs : List α}
    {ys : List β} {r : γ} (h : r ∈ List.zipWith f xs ys) :
    ∃ x ∈ xs, ∃ y ∈ ys, r = f x y := by
  induction xs generalizing ys with
  | nil => simp at h
  | cons x xs ih =>
    cases ys with
    | nil => simp at h
    | cons y ys =>
      rcases List.mem_cons.mp h with h0 | h1
      · exact ⟨x, List.mem_cons_self x xs, y, List.mem_cons_self y ys, h0⟩
      · obtain ⟨a, ha, b, hb, rfl⟩ := ih h1
        exact ⟨a, List.mem_cons_of_mem x ha, b, List.mem_cons_of_mem y hb, rfl⟩

lemma shape_matMul2 {A B : List (List F)} {N M : ℕ} (hA : Shape A N M)
    (hB : Shape B N M) : Shape (matMul2 A B) N M := by
  constructor
  · simp [matMul2, hA.1, hB.1]
  · intro r hr
    obtain ⟨a, ha, b, hb, rfl⟩ := mem_zipWith_exists hr
    simp [List.length_zipWith, hA.2 a ha, hB.2 b hb]

lemma entry_matMul2 {A B : List (List F)} {N M k j : ℕ} (hA : Shape A N M)
    (hB : Shape B N M) (hk : k < N) (hj : j < M) :
    entry (matMul2 A B) k j = fmul (entry A k j) (entry B k j) := by
  unfold entry matMul2
  rw [getD_zipWith' _ A B k (hA.1 ▸ hk) (hB.1 ▸ hk) [] [] []]
  exact getD_zipWith' fmul _ _ j (by rw [hA.row_len hk]; exact hj)
    (by rw [hB.row_len hk]; exact hj) nan nan nan

lemma shape_foldl_matMul2 {cs : List (List (List F))} {N M : ℕ} :
    ∀ {A : List (List F)}, Shape A N M → (∀ B ∈ cs, Shape B N M) →
    Shape (cs.foldl matMul2 A) N M := by
  induction cs with
  | nil => intro A hA _; exact hA
  | cons c cs ih =>
    intro A hA hcs
    exact ih (shape_matMul2 hA (hcs c (List.mem_cons_self c cs)))
      (fun B hB => hcs B (List.mem_cons_of_mem c hB))

lemma entry_foldl_matMul2 {cs : List (List (List F))} {N M k j : ℕ}
    (hk : k < N) (hj : j < M) :
    ∀ {A : List (List F)}, Shape A N M → (∀ B ∈ cs, Shape B N M) →
    entry (cs.foldl matMul2 A) k j =
      cs.foldl (fun acc B => fmul acc (entry B k j)) (entry A k j) := by
  induction cs with
  | nil => intro A _ _; rfl
  | cons c cs ih =>
    intro A hA hcs
    have hc : Shape c N M := hcs c (List.mem_cons_self c cs)
    rw [List.foldl_cons, List.foldl_cons,
      ih (shape_matMul2 hA hc) (fun B hB => hcs B (List.mem_cons_of_mem c hB)),
      entry_matMul2 hA hc hk hj]

lemma foldl_fmul_fin {α : Type} (l : List α) (g : α → ℝ) :
    ∀ a : ℝ, l.foldl (fun acc b => fmul acc (fin (g b))) (fin a) =
      fin (a * (l.map g).prod) := by
  induction l with
  | nil => intro a; simp
  | cons x xs ih =>
    intro a
    rw [List.foldl_cons, fmul_fin_fin, ih, List.map_cons, List.prod_cons,
      mul_assoc]

lemma foldl_zipWith_fadd_getD {j : ℕ} :
    ∀ (rs : List (List F)) (r : List F), j < r.length →
    (∀ s ∈ rs, j < s.length) →
    (rs.foldl (List.zipWith fadd) r).getD j nan =
      rs.foldl (fun acc s => fadd acc (s.getD j nan)) (r.getD j nan) := by
  intro rs
  induction rs with
  | nil => intro r _ _; rfl
  | cons s ss ih =>
    intro r hr hs
    have hsl : j < s.length := hs s (List.mem_cons_self s ss)
    rw [List.foldl_cons, List.foldl_cons,
      ih (List.zipWith fadd r s)
        (by rw [List.length_zipWith]; exact lt_min hr hsl)
        (fun t ht => hs t (List.mem_cons_of_mem s ht)),
      getD_zipWith' fadd r s j hr hsl nan nan nan]

lemma foldl_fadd_getD_fin {j : ℕ} :
    ∀ (rs : List (List F)) (a : ℝ) (ψ : ℕ → ℝ),
    (∀ k, k < rs.length → (rs.getD k []).getD j nan = fin (ψ k)) →
    rs.foldl (fun acc s => fadd acc (s.getD j nan)) (fin a) =
      fin (a + ((List.range rs.length).map ψ).sum) := by
  intro rs
  induction rs with
  | nil => intro a ψ _; simp
  | cons s ss ih =>
    intro a ψ hent
    have h0 : s.getD j nan = fin (ψ 0) := hent 0 (Nat.succ_pos _)
    rw [List.foldl_cons, h0, fadd_fin_fin,
      ih (a + ψ 0) (fun n => ψ (n + 1))
        (fun k hk => hent (k + 1) (Nat.succ_lt_succ hk))]
    congr 1
    rw [List.length_cons, List.range_succ_eq_map, List.map_cons,
      List.sum_cons, List.map_map, add_assoc]
    rfl

lemma listFSum_getD_fin :
    ∀ (l : List F) (ψ : ℕ → ℝ),
    (∀ k, k < l.length → l.getD k nan = fin (ψ k)) →
    listFSum l = fin (((List.range l.length).map ψ).sum) := by
  intro l
  induction l with
  | nil => intro ψ _; simp [listFSum]
  | cons x xs ih =>
    intro ψ hent
    have h0 : x = fin (ψ 0) := hent 0 (Nat.succ_pos _)
    have hrest := ih (fun n => ψ (n + 1))
      (fun k hk => hent (k + 1) (Nat.succ_lt_succ hk))
    show fadd x (listFSum xs) = _
    rw [h0, hrest, fadd_fin_fin, List.length_cons, List.range_succ_eq_map,
      List.map_cons, List.sum_cons, List.map_map]
    rfl

lemma length_foldl_zipWith_fadd {M : ℕ} :
    ∀ (rs : List (List F)) (r : List F), r.length = M →
    (∀ s ∈ rs, s.length = M) →
    (rs.foldl (List.zipWith fadd) r).length = M := by
  intro rs
  induction rs with
  | nil => intro r hr _; exact hr
  | cons s ss ih =>
    intro r hr hs
    rw [List.foldl_cons]
    have hlen : (List.zipWith fadd r s).length = M := by
      rw [List.length_zipWith, hr, hs s (List.mem_cons_self s ss)]
      exact min_self M
    exact ih (List.zipWith fadd r s) hlen
      (fun t ht => hs t (List.mem_cons_of_mem s ht))

lemma list_sum_div (s : ℝ) : ∀ l : List ℝ,
    (l.map (fun x => x / s)).sum = l.sum / s := by
  intro l
  induction l with
  | nil => simp
  | cons x xs ih => rw [List.map_cons, List.sum_cons, List.sum_cons, ih, add_div]

lemma length_colSums {Z : List (List F)} {N M : ℕ} (hsh : Shape Z N M)
    (hN : 0 < N) : (colSums Z).length = M := by
  cases Z with
  | nil => rw [← hsh.1] at hN; simp at hN
  | cons r rs =>
    exact length_foldl_zipWith_fadd rs r (hsh.2 r (List.mem_cons_self r rs))
      (fun s hs => hsh.2 s (List.mem_cons_of_mem r hs))

lemma colSums_getD_fin {Z : List (List F)} {N M j : ℕ} (φ : ℕ → ℝ)
    (hN : 0 < N) (hj : j < M) (hsh : Shape Z N M)
    (hent : ∀ k, k < N → entry Z k j = fin (φ k)) :
    (colSums Z).getD j nan = fin (((List.range N).map φ).sum) := by
  cases Z with
  | nil => rw [← hsh.1] at hN; simp at hN
  | cons r rs =>
    have hrlen : j < r.length := by
      rw [hsh.2 r (List.mem_cons_self r rs)]; exact hj
    have hN1 : rs.length + 1 = N := hsh.1
    show (rs.foldl (List.zipWith fadd) r).getD j nan = _
    rw [foldl_zipWith_fadd_getD rs r hrlen
      (fun s hs => by
        rw [hsh.2 s (List.mem_cons_of_mem r hs)]; exact hj)]
    have h0 : r.getD j nan = fin (φ 0) := hent 0 hN
    rw [h0, foldl_fadd_getD_fin rs (φ 0) (fun n => φ (n + 1))
      (fun k hk => hent (k + 1) (by rw [← hN1]; exact Nat.succ_lt_succ hk))]
    rw [← hN1, List.range_succ_eq_map, List.map_cons, List.sum_cons,
      List.map_map]
    rfl

lemma partition_entries_fin (m : SuperpositionApproximation) (T : List F)
    (N M j : ℕ) (p : PF) (ps : List PF) (v : PF → ℕ → ℝ)
    (hm : m.partition_functions = p :: ps)
    (hj : j < M)
    (hshape : ∀ pf ∈ m.partition_functions, Shape (pf.calc_part_func T) N M)
    (hval : ∀ pf ∈ m.partition_functions, ∀ k, k < N →
      entry (pf.calc_part_func T) k j = fin (v pf k)) :
    ∃ Z, calc_partition_functions m T = some Z ∧ Shape Z N M ∧
      ∀ k, k < N →
        entry Z k j = fin (v p k * (ps.map (fun q => v q k)).prod) := by
  have hp : p ∈ m.partition_functions := by rw [hm]; exact List.mem_cons_self p ps
  have hps : ∀ q ∈ ps, q ∈ m.partition_functions := by
    intro q hq; rw [hm]; exact List.mem_cons_of_mem p hq
  have hA : Shape (p.calc_part_func T) N M := hshape p hp
  have hcs : ∀ B ∈ ps.map (fun pf => pf.calc_part_func T), Shape B N M := by
    intro B hB
    obtain ⟨q, hq, rfl⟩ := List.mem_map.mp hB
    exact hshape q (hps q hq)
  refine ⟨(ps.map (fun pf => pf.calc_part_func T)).foldl matMul2
    (p.calc_part_func T), ?_, shape_foldl_matMul2 hA hcs, ?_⟩
  · unfold calc_partition_functions
    rw [hm, List.map_cons]
  · intro k hk
    rw [entry_foldl_matMul2 hk hj hA hcs, List.foldl_map,
      hval p hp k hk,
      List.foldl_ext _ (fun acc q => fmul acc (fin (v q k))) _
        (fun acc q hq => by rw [hval q (hps q hq) k hk]),
      foldl_fmul_fin]

/-- C2: for every SuperpositionApproximation with at least one registered
contribution whose per-minimum partition-function values are all positive
finite reals at a grid column with T greater than 0, the occupation
probabilities returned by calc_probability sum to exactly 1 over the N
minima at that column. -/
theorem C2_probability_sums_to_one
    (m : SuperpositionApproximation) (T : List F) (N M j : ℕ)
    (v : PF → ℕ → ℝ)
    (hne : m.partition_functions ≠ [])
    (hN : 0 < N) (hj : j < M)
    (hT : flt (fin 0) (T.getD j nan))
    (hshape : ∀ pf ∈ m.partition_functions, Shape (pf.calc_part_func T) N M)
    (hval : ∀ pf ∈ m.partition_functions, ∀ k, k < N →
      entry (pf.calc_part_func T) k j = fin (v pf k) ∧ 0 < v pf k) :
    ∃ P, calc_probability m T = some P ∧ listFSum (colOf P j) = fin 1 := by
  obtain ⟨p, ps, hm⟩ : ∃ p ps, m.partition_functions = p :: ps := by
    cases hl : m.partition_functions with
    | nil => exact absurd hl hne
    | cons p ps => exact ⟨p, ps, rfl⟩
  obtain ⟨Z, hZeq, hZsh, hZent⟩ := partition_entries_fin m T N M j p ps v hm hj
    hshape (fun pf hpf k hk => (hval pf hpf k hk).1)
  set W : ℕ → ℝ := fun k => v p k * (ps.map (fun q => v q k)).prod with hW
  have hWpos : ∀ k, k < N → 0 < W k := by
    intro k hk
    refine mul_pos ((hval p (by rw [hm]; exact List.mem_cons_self p ps) k hk).2)
      (List.prod_pos ?_)
    intro x hx
    obtain ⟨q, hq, rfl⟩ := List.mem_map.mp hx
    exact (hval q (by rw [hm]; exact List.mem_cons_of_mem p hq) k hk).2
  set S : ℝ := ((List.range N).map W).sum with hS
  have hSpos : 0 < S := by
    refine List.sum_pos _ ?_ ?_
    · intro x hx
      obtain ⟨k, hk, rfl⟩ := List.mem_map.mp hx
      exact hWpos k (List.mem_range.mp hk)
    · simp only [ne_eq, List.map_eq_nil_iff, List.range_eq_nil]
      omega
  have hTot : (colSums Z).getD j nan = fin S := colSums_getD_fin W hN hj hZsh hZent
  have hTotLen : (colSums Z).length = M := length_colSums hZsh hN
  refine ⟨Z.map (fun row => List.zipWith fdiv row (colSums Z)), ?_, ?_⟩
  · unfold calc_probability
    rw [hZeq]
    rfl
  · have hPlen : (Z.map (fun row => List.zipWith fdiv row (colSums Z))).length = N := by
      rw [List.length_map, hZsh.1]
    have hPent : ∀ k, k < N →
        entry (Z.map (fun row => List.zipWith fdiv row (colSums Z))) k j =
          fin (W k / S) := by
      intro k hk
      unfold entry
      rw [getD_map' _ Z k (hZsh.1 ▸ hk) [] [],
        getD_zipWith' fdiv _ _ j (by rw [hZsh.row_len hk]; exact hj)
          (by rw [hTotLen]; exact hj) nan nan nan]
      show fdiv (entry Z k j) ((colSums Z).getD j nan) = _
      rw [hZent k hk, hTot, fdiv_fin_fin hSpos.ne.symm]
    have hColLen : (colOf (Z.map (fun row => List.zipWith fdiv row (colSums Z))) j).length = N := by
      unfold colOf
      rw [List.length_map, hPlen]
    rw [listFSum_getD_fin _ (fun k => W k / S) ?hent]
    case hent =>
      intro k hk
      rw [hColLen] at hk
      unfold colOf
      rw [getD_map' _ _ k (by rw [hPlen]; exact hk) nan []]
      exact hPent k hk
    rw [hColLen]
    have : (List.range N).map (fun k => W k / S) =
        ((List.range N).map W).map (fun x => x / S) := by
      rw [List.map_map]
      rfl
    rw [this, list_sum_div, ← hS, div_self hSpos.ne.symm]

lemma fin_inj {x y : ℝ} (h : fin x = fin y) : x = y := by
  injection h

lemma foldr_min_le_init (l : List ℝ) (a : ℝ) : l.foldr min a ≤ a := by
  induction l with
  | nil => exact le_refl a
  | cons x xs ih => exact (min_le_right _ _).trans ih

lemma foldr_min_le_mem {l : List ℝ} {x : ℝ} (hx : x ∈ l) (a : ℝ) :
    l.foldr min a ≤ x := by
  induction l with
  | nil => simp at hx
  | cons y ys ih =>
    rcases List.mem_cons.mp hx with h0 | h1
    · rw [h0]; exact min_le_left _ _
    · exact (min_le_right _ _).trans (ih h1)

lemma foldr_min_mem (l : List ℝ) (a : ℝ) :
    l.foldr min a = a ∨ l.foldr min a ∈ l := by
  induction l with
  | nil => exact Or.inl rfl
  | cons x xs ih =>
    rw [List.foldr_cons]
    rcases min_choice x (xs.foldr min a) with h | h
    · rw [h]
      exact Or.inr (List.mem_cons_self x xs)
    · rw [h]
      rcases ih with h2 | h2
      · exact Or.inl h2
      · exact Or.inr (List.mem_cons_of_mem x h2)

lemma listMin_le {l : List ℝ} {x : ℝ} (hx : x ∈ l) : listMin l ≤ x :=
  foldr_min_le_mem hx _

lemma listMin_mem {l : List ℝ} (hl : l ≠ []) : listMin l ∈ l := by
  cases l with
  | nil => exact absurd rfl hl
  | cons x xs =>
    have hdef : listMin (x :: xs) = min x (xs.foldr min x) := rfl
    rw [hdef]
    rcases min_choice x (xs.foldr min x) with h | h
    · rw [h]
      exact List.mem_cons_self x xs
    · rw [h]
      rcases foldr_min_mem xs x with h2 | h2
      · rw [h2]
        exact List.mem_cons_self x xs
      · exact List.mem_cons_of_mem x h2

lemma getD_mem {l : List ℝ} {k : ℕ} (hk : k < l.length) (d : ℝ) :
    l.getD k d ∈ l := by
  rw [List.getD_eq_getElem _ _ hk]
  exact List.getElem_mem hk

lemma rel_getD (pe : List ℝ) {k : ℕ} (hk : k < pe.length) :
    (relative_energy pe).getD k 0 = pe.getD k 0 - listMin pe :=
  getD_map' _ pe k hk 0 0

lemma rel_nonneg (pe : List ℝ) {k : ℕ} (hk : k < pe.length) :
    0 ≤ (relative_energy pe).getD k 0 := by
  rw [rel_getD pe hk]
  exact sub_nonneg.mpr (listMin_le (getD_mem hk 0))

lemma exists_rel_zero (pe : List ℝ) (hne : pe ≠ []) :
    ∃ k, k < pe.length ∧ (relative_energy pe).getD k 0 = 0 := by
  obtain ⟨i, hi, hv⟩ := List.mem_iff_getElem.mp (listMin_mem hne)
  refine ⟨i, hi, ?_⟩
  rw [rel_getD pe hi, List.getD_eq_getElem _ _ hi, hv, sub_self]

lemma length_relative_energy (pe : List ℝ) :
    (relative_energy pe).length = pe.length := List.length_map _ _

lemma electronic_shape (pe g : List ℝ) (T : List F)
    (hg : g.length = pe.length) :
    Shape (PF.calc_part_func (PF.electronic pe g) T) pe.length T.length := by
  constructor
  · show (List.zipWith _ _ _).length = _
    rw [List.length_zipWith, length_relative_energy, hg, min_self]
  · intro r hr
    obtain ⟨e, _, gk, _, rfl⟩ := mem_zipWith_exists hr
    exact List.length_map _ _

lemma electronic_entry (pe g : List ℝ) (T : List F) (k j : ℕ)
    (hk1 : k < pe.length) (hk2 : k < g.length) (hj : j < T.length) :
    entry (PF.calc_part_func (PF.electronic pe g) T) k j =
      fmul (fexp (fneg (maskedExpEntry ((relative_energy pe).getD k 0)
        (T.getD j nan)))) (fin (g.getD k 0)) := by
  unfold entry PF.calc_part_func
  rw [getD_zipWith' _ (relative_energy pe) g k
    (by rw [length_relative_energy]; exact hk1) hk2 [] 0 0,
    getD_map' _ T j hj nan nan]

lemma electronic_entry_T0_rel0 (pe g : List ℝ) (T : List F) (k j : ℕ)
    (hk1 : k < pe.length) (hk2 : k < g.length) (hj : j < T.length)
    (hT : T.getD j nan = fin 0) (hrel : (relative_energy pe).getD k 0 = 0) :
    entry (PF.calc_part_func (PF.electronic pe g) T) k j = fin (g.getD k 0) := by
  rw [electronic_entry pe g T k j hk1 hk2 hj, hrel,
    maskedExpEntry_nonpos (le_of_eq rfl), fneg_fin, neg_zero, fexp_fin,
    Real.exp_zero, fmul_fin_fin, one_mul]

lemma electronic_entry_T0_relpos (pe g : List ℝ) (T : List F) (k j : ℕ)
    (hk1 : k < pe.length) (hk2 : k < g.length) (hj : j < T.length)
    (hT : T.getD j nan = fin 0) (hrel : 0 < (relative_energy pe).getD k 0) :
    entry (PF.calc_part_func (PF.electronic pe g) T) k j = fin 0 := by
  rw [electronic_entry pe g T k j hk1 hk2 hj, hT,
    maskedExpEntry_pos_zeroT hrel]
  show fmul (fexp ninf) (fin (g.getD k 0)) = fin 0
  rw [fexp_ninf, fmul_fin_fin, zero_mul]

lemma probability_entries_fin (m : SuperpositionApproximation) (T : List F)
    (N M j : ℕ) (φ : ℕ → ℝ) (Z : List (List F))
    (hN : 0 < N) (hj : j < M)
    (hZeq : calc_partition_functions m T = some Z) (hZsh : Shape Z N M)
    (hZent : ∀ k, k < N → entry Z k j = fin (φ k))
    (hS : ((List.range N).map φ).sum ≠ 0) :
    ∃ P, calc_probability m T = some P ∧ P.length = N ∧
      ∀ k, k < N →
        entry P k j = fin (φ k / ((List.range N).map φ).sum) := by
  have hTot : (colSums Z).getD j nan = fin (((List.range N).map φ).sum) :=
    colSums_getD_fin φ hN hj hZsh hZent
  have hTotLen : (colSums Z).length = M := length_colSums hZsh hN
  refine ⟨Z.map (fun row => List.zipWith fdiv row (colSums Z)), ?_, ?_, ?_⟩
  · unfold calc_probability
    rw [hZeq]
    rfl
  · rw [List.length_map, hZsh.1]
  · intro k hk
    unfold entry
    rw [getD_map' _ Z k (hZsh.1 ▸ hk) [] [],
      getD_zipWith' fdiv _ _ j (by rw [hZsh.row_len hk]; exact hj)
        (by rw [hTotLen]; exact hj) nan nan nan]
    show fdiv (entry Z k j) ((colSums Z).getD j nan) = _
    rw [hZent k hk, hTot, fdiv_fin_fin hS]

/-- C3 amended: at a grid entry with T = 0, calc_probability gives
probability 0 to every minimum whose relative_energy is positive, and
splits the mass over the relative_energy-zero minima in proportion to the
per-minimum weight spin_multiplicity times the product of the values of
the other registered contributions at that entry; the split is the equal
1/t split claimed by the spec only when those weights coincide. -/
theorem C3_probability_T0_weighted_split
    (pe g : List ℝ) (rest : List PF) (T : List F) (j : ℕ) (w : PF → ℕ → ℝ)
    (hpe : pe ≠ []) (hg : g.length = pe.length)
    (hgpos : ∀ k, k < pe.length → 0 < g.getD k 0)
    (hj : j < T.length) (hT : T.getD j nan = fin 0)
    (hrshape : ∀ B ∈ rest, Shape (B.calc_part_func T) pe.length T.length)
    (hrval : ∀ B ∈ rest, ∀ k, k < pe.length →
      entry (B.calc_part_func T) k j = fin (w B k) ∧ 0 < w B k) :
    ∃ P, calc_probability ⟨[PF.electronic pe g] ++ rest⟩ T = some P ∧
      ∀ k, k < pe.length →
        entry P k j = fin ((if (relative_energy pe).getD k 0 = 0
            then g.getD k 0 * (rest.map (fun B => w B k)).prod else 0) /
          ((List.range pe.length).map (fun i =>
            if (relative_energy pe).getD i 0 = 0
            then g.getD i 0 * (rest.map (fun B => w B i)).prod else 0)).sum) := by
  classical
  set N := pe.length with hNdef
  have hN : 0 < N := List.length_pos.mpr hpe
  set elecv : ℕ → ℝ := fun k =>
    if (relative_energy pe).getD k 0 = 0 then g.getD k 0 else 0 with helecv
  set v : PF → ℕ → ℝ := fun q k =>
    if q = PF.electronic pe g then elecv k else w q k with hv
  set m : SuperpositionApproximation := ⟨[PF.electronic pe g] ++ rest⟩ with hmdef
  have hm : m.partition_functions = PF.electronic pe g :: rest := rfl
  have hEv : ∀ k, elecv k =
      (if (relative_energy pe).getD k 0 = 0 then g.getD k 0 else 0) :=
    fun _ => rfl
  have hVq : ∀ q k, v q k =
      (if q = PF.electronic pe g then elecv k else w q k) :=
    fun _ _ => rfl
  have helec_entry : ∀ k, k < N →
      entry (PF.calc_part_func (PF.electronic pe g) T) k j = fin (elecv k) := by
    intro k hk
    have hk2 : k < g.length := by rw [hg]; exact hk
    by_cases hrel : (relative_energy pe).getD k 0 = 0
    · rw [electronic_entry_T0_rel0 pe g T k j hk hk2 hj hT hrel, hEv k,
        if_pos hrel]
    · have hpos : 0 < (relative_energy pe).getD k 0 :=
        lt_of_le_of_ne (rel_nonneg pe hk) (Ne.symm hrel)
      rw [electronic_entry_T0_relpos pe g T k j hk hk2 hj hT hpos, hEv k,
        if_neg hrel]
  have hshape : ∀ pf ∈ m.partition_functions,
      Shape (pf.calc_part_func T) N T.length := by
    intro pf hpf
    rw [hm] at hpf
    rcases List.mem_cons.mp hpf with h0 | h1
    · rw [h0]
      exact electronic_shape pe g T hg
    · exact hrshape pf h1
  have hval : ∀ pf ∈ m.partition_functions, ∀ k, k < N →
      entry (pf.calc_part_func T) k j = fin (v pf k) := by
    intro pf hpf k hk
    rw [hVq pf k]
    by_cases hq : pf = PF.electronic pe g
    · rw [hq, if_pos rfl]
      exact helec_entry k hk
    · rw [if_neg hq]
      rw [hm] at hpf
      rcases List.mem_cons.mp hpf with h0 | h1
      · exact absurd h0 hq
      · exact (hrval pf h1 k hk).1
  obtain ⟨Z, hZeq, hZsh, hZent⟩ := partition_entries_fin m T N T.length j
    (PF.electronic pe g) rest v hm hj hshape hval
  have hvprod : ∀ k, k < N →
      (rest.map (fun q => v q k)).prod = (rest.map (fun q => w q k)).prod := by
    intro k hk
    congr 1
    refine List.map_congr_left ?_
    intro B hB
    rw [hVq B k]
    by_cases hq : B = PF.electronic pe g
    · have h1 : entry (B.calc_part_func T) k j = fin (w B k) :=
        (hrval B hB k hk).1
      have h2 : entry (B.calc_part_func T) k j = fin (elecv k) := by
        rw [hq]
        exact helec_entry k hk
      rw [if_pos hq]
      exact fin_inj (h2.symm.trans h1)
    · rw [if_neg hq]
  set W : ℕ → ℝ := fun k =>
    if (relative_energy pe).getD k 0 = 0
    then g.getD k 0 * (rest.map (fun B => w B k)).prod else 0 with hWdef
  have hWk : ∀ k, W k =
      (if (relative_energy pe).getD k 0 = 0
       then g.getD k 0 * (rest.map (fun B => w B k)).prod else 0) :=
    fun _ => rfl
  have hZentW : ∀ k, k < N → entry Z k j = fin (W k) := by
    intro k hk
    rw [hZent k hk, hvprod k hk, hVq, if_pos rfl, hEv k, hWk k]
    by_cases hrel : (relative_energy pe).getD k 0 = 0
    · rw [if_pos hrel, if_pos hrel]
    · rw [if_neg hrel, if_neg hrel, zero_mul]
  have hWnonneg : ∀ k, k < N → 0 ≤ W k := by
    intro k hk
    rw [hWk k]
    by_cases hrel : (relative_energy pe).getD k 0 = 0
    · simp only [if_pos hrel]
      refine le_of_lt (mul_pos (hgpos k hk) (List.prod_pos ?_))
      intro x hx
      obtain ⟨q, hq, rfl⟩ := List.mem_map.mp hx
      exact (hrval q hq k hk).2
    · rw [if_neg hrel]
  have hWpos0 : ∃ k0, k0 < N ∧ 0 < W k0 := by
    obtain ⟨k0, hk0, hrel0⟩ := exists_rel_zero pe hpe
    refine ⟨k0, hk0, ?_⟩
    rw [hWk k0, if_pos hrel0]
    refine mul_pos (hgpos k0 hk0) (List.prod_pos ?_)
    intro x hx
    obtain ⟨q, hq, rfl⟩ := List.mem_map.mp hx
    exact (hrval q hq k0 hk0).2
  have hSpos : 0 < ((List.range N).map W).sum := by
    obtain ⟨k0, hk0, hW0⟩ := hWpos0
    have hmem : W k0 ∈ (List.range N).map W :=
      List.mem_map.mpr ⟨k0, List.mem_range.mpr hk0, rfl⟩
    have hle : W k0 ≤ ((List.range N).map W).sum := by
      refine List.single_le_sum ?_ _ hmem
      intro x hx
      obtain ⟨i, hi, rfl⟩ := List.mem_map.mp hx
      exact hWnonneg i (List.mem_range.mp hi)
    exact lt_of_lt_of_le hW0 hle
  obtain ⟨P, hPeq, _, hPent⟩ := probability_entries_fin m T N T.length j W Z
    hN hj hZeq hZsh hZentW hSpos.ne.symm
  exact ⟨P, hPeq, fun k hk => hPent k hk⟩

lemma fmul_pinf_fin_pos {y : ℝ} (hy : 0 < y) : fmul pinf (fin y) = pinf := by
  simp [fmul, hy.ne.symm, hy]

lemma listFProd_map_const_fin {α : Type} (l : List α) (c : ℝ) :
    listFProd (l.map (fun _ => fin c)) = fin (c ^ l.length) := by
  induction l with
  | nil => simp [listFProd]
  | cons x xs ih =>
    show fmul (fin c) (listFProd (xs.map (fun _ => fin c))) = _
    rw [ih, fmul_fin_fin, List.length_cons, pow_succ, mul_comm]

/-- C5 counterexample: with zero registered contributions the source prints
a message and returns None from calc_partition_functions, and the
probability call then dies on the propagated None — the caller receives a
non-result, not the ConfigurationError value the spec claims (no such error
type exists anywhere in the code). -/
theorem C5_counterexample :
    calc_partition_functions ⟨[]⟩ [fin 300] = none ∧
    calc_probability ⟨[]⟩ [fin 300] = none :=
  ⟨rfl, rfl⟩

/-- C5 amended: for every SuperpositionApproximation with an empty
contribution list, calc_partition_functions returns the None non-result
(after printing a warning) and calc_probability propagates it; neither
reports a ConfigurationError, which does not exist in the codebase. -/
theorem C5_empty_model_returns_none (m : SuperpositionApproximation)
    (T : List F) (h : m.partition_functions = []) :
    calc_partition_functions m T = none ∧ calc_probability m T = none := by
  have h1 : calc_partition_functions m T = none := by
    unfold calc_partition_functions
    rw [h]
    rfl
  refine ⟨h1, ?_⟩
  unfold calc_probability
  rw [h1]
  rfl

/-- C5 witness: the amended statement evaluated on a concrete empty model. -/
theorem C5_witness :
    (⟨[]⟩ : SuperpositionApproximation).partition_functions = [] ∧
    calc_partition_functions ⟨[]⟩ [fin 100] = none ∧
    calc_probability ⟨[]⟩ [fin 100] = none :=
  ⟨rfl, (C5_empty_model_returns_none ⟨[]⟩ [fin 100] rfl).1,
    (C5_empty_model_returns_none ⟨[]⟩ [fin 100] rfl).2⟩

/-- C9 counterexample: calc_beta applied to a negative temperature returns
normally with the masked fallback value +inf; it does not fail with the
DomainError the spec claims (the where-mask routes every T not greater
than 0, negatives included, to the out value). -/
theorem C9_counterexample : calc_beta [fin (-1)] = [pinf] := by
  norm_num [calc_beta, betaOfF, flt]

/-- C9 amended: calc_beta returns 1/(KB*T) at entries with T greater than
0, +inf at entries with T = 0, and also +inf (not a DomainError) at
negative entries. -/
theorem C9_beta_values (T : List F) (j : ℕ) (hj : j < T.length) :
    (∀ t : ℝ, T.getD j nan = fin t → 0 < t →
      (calc_beta T).getD j nan = fin (1 / (KB * t))) ∧
    (T.getD j nan = fin 0 → (calc_beta T).getD j nan = pinf) ∧
    (∀ t : ℝ, T.getD j nan = fin t → t < 0 →
      (calc_beta T).getD j nan = pinf) := by
  have hb : (calc_beta T).getD j nan = betaOfF (T.getD j nan) :=
    getD_map' betaOfF T j hj nan nan
  refine ⟨?_, ?_, ?_⟩
  · intro t ht htpos
    rw [hb, ht, betaOfF_fin_pos htpos]
  · intro ht
    rw [hb, ht, betaOfF_fin_nonpos (lt_irrefl 0)]
  · intro t ht htneg
    rw [hb, ht, betaOfF_fin_nonpos (not_lt.mpr htneg.le)]

/-- C9 witness: the amended statement evaluated on the concrete grid
[2, 0, -3]. -/
theorem C9_witness :
    (calc_beta [fin 2, fin 0, fin (-3)]).getD 0 nan = fin (1 / (KB * 2)) ∧
    (calc_beta [fin 2, fin 0, fin (-3)]).getD 1 nan = pinf ∧
    (calc_beta [fin 2, fin 0, fin (-3)]).getD 2 nan = pinf :=
  ⟨(C9_beta_values [fin 2, fin 0, fin (-3)] 0 (by norm_num)).1 2 rfl
      (by norm_num),
    (C9_beta_values [fin 2, fin 0, fin (-3)] 1 (by norm_num)).2.1 rfl,
    (C9_beta_values [fin 2, fin 0, fin (-3)] 2 (by norm_num)).2.2 (-3) rfl
      (by norm_num)⟩

/-- C7: RotationalPF.calc_part_func as implemented returns
prod(moments)/sigma at every grid entry — a value with no beta dependence,
no sqrt(pi) factor and the plain product rather than its square root — in
contradiction with the rigid-rotor formula of its own docstring and of the
spec; here sigma = 1 and moments (4, 1, 1) give the constant 4 at the two
distinct temperatures 100 K and 200 K. -/
theorem C7_rotational_ignores_beta :
    PF.calc_part_func (PF.rotational [1] [[4, 1, 1]]) [fin 100, fin 200] =
      [[fin 4, fin 4]] := by
  norm_num [PF.calc_part_func, clampMomentsRow, fdiv]

/-- C8 counterexample: for a single positive frequency, the quantum
harmonic partition function at the T = 0 grid entry evaluates to 1/4 (the
masked sinh placeholder 2 gives each csch factor the value 0.5/2), not the
0 that the spec claims for the T to 0 asymptote of csch. -/
theorem C8_counterexample :
    PF.calc_part_func (PF.quantumHarmonic [[1]]) [fin 0] = [[fin (1/4)]] ∧
    (fin ((1 : ℝ)/4) : F) ≠ fin 0 := by
  constructor
  · norm_num [PF.calc_part_func, listFProd, fdiv, fmul, flt]
  · simp only [ne_eq, F.fin.injEq]
    norm_num

/-- C8 amended: for every QuantumHarmonicPF, at every grid entry with
T = 0 each factor is evaluated through the masked sinh output placeholder
2, so calc_part_func returns the finite positive constant (1/4) to the
number of modes for every minimum — the same for all minima, hence
cancelling in occupation probabilities, and free of NaN or Inf, but not 0. -/
theorem C8_quantum_T0_returns_quarter_pow (freqs : List (List ℝ))
    (T : List F) (k j : ℕ) (hk : k < freqs.length) (hj : j < T.length)
    (hT : T.getD j nan = fin 0)
    (hfreq : ∀ nu ∈ freqs.getD k [], 0 < nu) :
    entry (PF.calc_part_func (PF.quantumHarmonic freqs) T) k j =
      fin ((1/4) ^ (freqs.getD k []).length) := by
  unfold entry PF.calc_part_func
  rw [getD_map' _ freqs k hk [] [], getD_map' _ T j hj nan nan, hT]
  have hcond : ¬ flt (fin 0) (fin (0 : ℝ)) := lt_irrefl 0
  have heach : ∀ nu ∈ freqs.getD k [],
      fdiv (fin (1/2))
        (if flt (fin 0) (fin (0:ℝ)) then
          fsinh (maskedExpEntry (1/2 * H * nu) (fin 0)) else fin 2) =
      fin ((1:ℝ)/4) := by
    intro nu _
    rw [if_neg hcond, fdiv_fin_fin (two_ne_zero)]
    norm_num
  rw [List.map_congr_left heach]
  have hconst : (freqs.getD k []).map (fun _ => fin ((1:ℝ)/4)) =
      (freqs.getD k []).map (fun nu => fin ((1:ℝ)/4)) := rfl
  rw [← hconst, listFProd_map_const_fin]

/-- C8 witness: the amended statement evaluated on two modes at T = 0. -/
theorem C8_witness :
    entry (PF.calc_part_func (PF.quantumHarmonic [[1, 2]]) [fin 0]) 0 0 =
      fin ((1/4) ^ 2) := by
  have h := C8_quantum_T0_returns_quarter_pow [[1, 2]] [fin 0] 0 0
    (by norm_num) (by norm_num) rfl
    (by intro nu hnu; rcases List.mem_cons.mp hnu with rfl | h2
        · norm_num
        · rcases List.mem_cons.mp h2 with rfl | h3
          · norm_num
          · simp at h3)
  simpa using h

/-- C3 counterexample: two minima both at relative energy 0 but with spin
multiplicities 1 and 3 receive probabilities 1/4 and 3/4 at T = 0, not the
equal 1/2 and 1/2 split the spec claims for tied minima. -/
theorem C3_counterexample :
    calc_probability ⟨[PF.electronic [0, 0] [1, 3]]⟩ [fin 0] =
      some [[fin (1/4)], [fin (3/4)]] ∧
    calc_probability ⟨[PF.electronic [0, 0] [1, 3]]⟩ [fin 0] ≠
      some [[fin (1/2)], [fin (1/2)]] := by
  have h : calc_probability ⟨[PF.electronic [0, 0] [1, 3]]⟩ [fin 0] =
      some [[fin (1/4)], [fin (3/4)]] := by
    norm_num [calc_probability, calc_partition_functions, PF.calc_part_func,
      matMul2, colSums, relative_energy, listMin, maskedExpEntry, betaOfF,
      flt, fexp, fneg, fmul, fdiv, fadd, Real.exp_zero]
  refine ⟨h, ?_⟩
  rw [h]
  simp only [ne_eq, Option.some.injEq, List.cons.injEq, F.fin.injEq]
  norm_num

/-- C3 witness: the amended weighted-split statement evaluated on two tied
minima with spins 1 and 3 and no further contributions. -/
theorem C3_witness :
    ∃ P, calc_probability ⟨[PF.electronic [0, 0] [1, 3]] ++ ([] : List PF)⟩
        [fin 0] = some P ∧
      ∀ k, k < ([0, 0] : List ℝ).length →
        entry P k 0 = fin ((if (relative_energy [0, 0]).getD k 0 = 0
            then ([1, 3] : List ℝ).getD k 0 *
              (([] : List PF).map (fun B =>
                (fun (_ : PF) (_ : ℕ) => (1 : ℝ)) B k)).prod
            else 0) /
          ((List.range ([0, 0] : List ℝ).length).map (fun i =>
            if (relative_energy [0, 0]).getD i 0 = 0
            then ([1, 3] : List ℝ).getD i 0 *
              (([] : List PF).map (fun B =>
                (fun (_ : PF) (_ : ℕ) => (1 : ℝ)) B i)).prod
            else 0)).sum) :=
  C3_probability_T0_weighted_split [0, 0] [1, 3] [] [fin 0] 0
    (fun _ _ => 1) (by simp) (by norm_num)
    (by intro k hk
        have hk2 : k < 2 := by simpa using hk
        interval_cases k <;> norm_num [List.getD])
    (by norm_num) rfl
    (by intro B hB; simp at hB)
    (by intro B hB; simp at hB)

/-- C2 witness: the sum-to-one statement evaluated on a single minimum with
one electronic contribution at T = 1 K, where the partition-function value
is the finite positive constant 2. -/
theorem C2_witness :
    flt (fin 0) (([fin 1] : List F).getD 0 nan) ∧
    ∃ P, calc_probability ⟨[PF.electronic [0] [2]]⟩ [fin 1] = some P ∧
      listFSum (colOf P 0) = fin 1 := by
  refine ⟨by norm_num [flt], ?_⟩
  refine C2_probability_sums_to_one ⟨[PF.electronic [0] [2]]⟩ [fin 1] 1 1 0
    (fun _ _ => 2) (by simp) Nat.one_pos Nat.one_pos (by norm_num [flt]) ?_ ?_
  · intro pf hpf
    simp only [List.mem_singleton] at hpf
    subst hpf
    constructor
    · norm_num [PF.calc_part_func, relative_energy]
    · intro r hr
      norm_num [PF.calc_part_func, relative_energy, listMin] at hr
      rw [hr]
      norm_num
  · intro pf hpf k hk
    simp only [List.mem_singleton] at hpf
    subst hpf
    interval_cases k
    refine ⟨?_, by norm_num⟩
    norm_num [entry, PF.calc_part_func, relative_energy, listMin,
      maskedExpEntry, betaOfF, flt, fexp, fneg, fmul, Real.exp_zero]

/-- C6 counterexample: for relative energies 0 and 1 eV, the electronic
calc_part_func_w returns the matrix [[0, 0], [-inf, -1]] on the grid
[0 K, 1/KB K] — temperature dependent through beta and equal to minus
beta times the relative energy — whereas the spec claims the
temperature-independent value Delta E, which here would be [[0, 0], [1, 1]]. -/
theorem C6_counterexample :
    PF.calc_part_func_w (PF.electronic [0, 1] [1, 1]) [fin 0, fin (1 / KB)] =
      [[fin 0, fin 0], [ninf, fin (-1)]] ∧
    PF.calc_part_func_w (PF.electronic [0, 1] [1, 1]) [fin 0, fin (1 / KB)] ≠
      [[fin 0, fin 0], [fin 1, fin 1]] := by
  have h : PF.calc_part_func_w (PF.electronic [0, 1] [1, 1])
      [fin 0, fin (1 / KB)] = [[fin 0, fin 0], [ninf, fin (-1)]] := by
    norm_num [PF.calc_part_func_w, relative_energy, listMin, betaOfF, flt,
      fmul, fdiv, fneg, KB]
  refine ⟨h, ?_⟩
  rw [h]
  simp

/-- C6 amended: the electronic calc_part_func_w is masked to exactly 0
where the relative energy vanishes, and elsewhere returns minus beta times
the relative energy — a temperature-dependent value, equal to
-DeltaE/(KB*T) at finite positive T and to -inf at T = 0 — that is, it is
the beta-scaled derivative beta * d(ln Z)/d(beta) = -beta*DeltaE, not the
temperature-independent reduced moment DeltaE of the spec table. -/
theorem C6_electronic_w_values (pe g : List ℝ) (T : List F) (k j : ℕ)
    (hk : k < pe.length) (hj : j < T.length) :
    ((relative_energy pe).getD k 0 = 0 →
      entry (PF.calc_part_func_w (PF.electronic pe g) T) k j = fin 0) ∧
    (∀ t : ℝ, (relative_energy pe).getD k 0 ≠ 0 → T.getD j nan = fin t →
      0 < t →
      entry (PF.calc_part_func_w (PF.electronic pe g) T) k j =
        fin (-((relative_energy pe).getD k 0 / (KB * t)))) ∧
    (0 < (relative_energy pe).getD k 0 → T.getD j nan = fin 0 →
      entry (PF.calc_part_func_w (PF.electronic pe g) T) k j = ninf) := by
  have hbase : entry (PF.calc_part_func_w (PF.electronic pe g) T) k j =
      fneg (if (relative_energy pe).getD k 0 = 0 then fin 0
        else fmul (betaOfF (T.getD j nan)) (fin ((relative_energy pe).getD k 0))) := by
    unfold entry PF.calc_part_func_w
    rw [getD_map' _ (relative_energy pe) k
      (by rw [length_relative_energy]; exact hk) [] 0,
      getD_map' _ T j hj nan nan]
  refine ⟨?_, ?_, ?_⟩
  · intro hrel
    rw [hbase, if_pos hrel, fneg_fin, neg_zero]
  · intro t hrel ht htpos
    rw [hbase, if_neg hrel, ht, betaOfF_fin_pos htpos, fmul_fin_fin,
      fneg_fin, one_div_mul_eq_div]
  · intro hrel ht
    rw [hbase, if_neg hrel.ne.symm, ht, betaOfF_fin_nonpos (lt_irrefl 0),
      fmul_pinf_fin_pos hrel]
    rfl

/-- C6 witness: the amended statement evaluated at relative energies 0 and
1 on the grid [0 K, 2 K]. -/
theorem C6_witness :
    entry (PF.calc_part_func_w (PF.electronic [0, 1] [1, 1]) [fin 0, fin 2])
      0 0 = fin 0 ∧
    entry (PF.calc_part_func_w (PF.electronic [0, 1] [1, 1]) [fin 0, fin 2])
      1 1 = fin (-((relative_energy [0, 1]).getD 1 0 / (KB * 2))) ∧
    entry (PF.calc_part_func_w (PF.electronic [0, 1] [1, 1]) [fin 0, fin 2])
      1 0 = ninf :=
  ⟨(C6_electronic_w_values [0, 1] [1, 1] [fin 0, fin 2] 0 0 (by norm_num)
      (by norm_num)).1 (by norm_num [relative_energy, listMin, List.getD]),
    (C6_electronic_w_values [0, 1] [1, 1] [fin 0, fin 2] 1 1 (by norm_num)
      (by norm_num)).2.1 2
      (by norm_num [relative_energy, listMin, List.getD]) rfl (by norm_num),
    (C6_electronic_w_values [0, 1] [1, 1] [fin 0, fin 2] 1 0 (by norm_num)
      (by norm_num)).2.2
      (by norm_num [relative_energy, listMin, List.getD]) rfl⟩

/-- C4: ClassicalHarmonicSA.__init__ as written passes three positional
arrays to ElectronicPF, whose constructor takes two, so constructing the
Scenario A landscape raises TypeError (modelled as none) and no
probability matrix is ever produced; had the electronic contribution been
built with the two arrays ElectronicPF actually accepts (as the CLI does),
the model of Scenario A would indeed return the probability matrix
[[1, 1/2], [0, 1/2]] on the grid [0, inf] that the spec claims. -/
theorem C4_classical_sa_scenario :
    ClassicalHarmonicSA_init [0, 0.5] [[1], [1]] [1, 1] = none ∧
    calc_probability
        ⟨[PF.electronic [0, 0.5] [1, 1], PF.classicalHarmonic [[1], [1]]]⟩
        [fin 0, pinf] =
      some [[fin 1, fin (1/2)], [fin 0, fin (1/2)]] := by
  constructor
  · rfl
  · norm_num [calc_probability, calc_partition_functions, PF.calc_part_func,
      matMul2, colSums, relative_energy, listMin, maskedExpEntry, betaOfF,
      flt, fexp, fneg, fmul, fdiv, fadd, calc_geometric_mean, maskedLog,
      listFSum, fpowN, nVib, KB, Real.log_one, Real.exp_zero]

/-- C1: calc_heat_capacity as implemented is np.exp applied elementwise to
the probability matrix: for an electronic-only landscape with energies 0
and 0.5 eV at T = inf it returns the 2-by-1 matrix [[e^(1/2)], [e^(1/2)]],
while the fluctuation identity avg(V) + avg(W^2) - avg(W)^2 the spec
claims (modelled in calc_heat_capacity_spec) gives the length-1 vector [0]
there; the source also contradicts its own docstring, which promises a 1D
array of size M. -/
theorem C1_heat_capacity_is_exp_of_probability :
    calc_heat_capacity ⟨[PF.electronic [0, 0.5] [1, 1]]⟩ [pinf] =
      some [[fin (Real.exp (1/2))], [fin (Real.exp (1/2))]] ∧
    calc_heat_capacity_spec ⟨[PF.electronic [0, 0.5] [1, 1]]⟩ [pinf] =
      some [fin 0] := by
  constructor
  · norm_num [calc_heat_capacity, calc_probability, calc_partition_functions,
      PF.calc_part_func, matMul2, colSums, relative_energy, listMin,
      maskedExpEntry, betaOfF, flt, fexp, fneg, fmul, fdiv, fadd, KB]
  · norm_num [calc_heat_capacity_spec, calc_probability,
      calc_partition_functions, PF.calc_part_func, PF.calc_part_func_w,
      PF.calc_part_func_v, matMul2, matAdd2, colSums, ensembleAverageMat,
      relative_energy, listMin, maskedExpEntry, betaOfF, flt, fexp, fneg,
      fmul, fdiv, fadd, KB]

lemma fdiv_ninf_fin_nonneg {y : ℝ} (hy : 0 ≤ y) : fdiv ninf (fin y) = ninf := by
  simp [fdiv, hy]

lemma maskedLog_cases (x : ℝ) :
    (∃ r, maskedLog x = fin r) ∨ maskedLog x = ninf := by
  unfold maskedLog
  by_cases hx : 0 < x
  · exact Or.inl ⟨Real.log x, if_pos hx⟩
  · exact Or.inr (if_neg hx)

lemma listFSum_maskedLog_cases (l : List ℝ) :
    (∃ r, listFSum (l.map maskedLog) = fin r) ∨
    listFSum (l.map maskedLog) = ninf := by
  induction l with
  | nil => exact Or.inl ⟨0, rfl⟩
  | cons x xs ih =>
    show (∃ r, fadd (maskedLog x) (listFSum (xs.map maskedLog)) = fin r) ∨
      fadd (maskedLog x) (listFSum (xs.map maskedLog)) = ninf
    rcases maskedLog_cases x with ⟨r, hr⟩ | hr <;>
      rcases ih with ⟨s, hs⟩ | hs <;> rw [hr, hs]
    · exact Or.inl ⟨r + s, rfl⟩
    · exact Or.inr rfl
    · exact Or.inr rfl
    · exact Or.inr rfl

lemma listFSum_maskedLog_ninf {l : List ℝ} (hx : ∃ x ∈ l, x ≤ 0) :
    listFSum (l.map maskedLog) = ninf := by
  induction l with
  | nil => simp at hx
  | cons y ys ih =>
    show fadd (maskedLog y) (listFSum (ys.map maskedLog)) = ninf
    obtain ⟨x, hmem, hle⟩ := hx
    rcases List.mem_cons.mp hmem with h0 | h1
    · have hy : maskedLog y = ninf := by
        unfold maskedLog
        rw [if_neg (not_lt.mpr (h0 ▸ hle))]
      rw [hy]
      rcases listFSum_maskedLog_cases ys with ⟨s, hs⟩ | hs <;> rw [hs] <;> rfl
    · rw [ih ⟨x, h1, hle⟩]
      rcases maskedLog_cases y with ⟨r, hr⟩ | hr <;> rw [hr] <;> rfl

lemma listFSum_maskedLog_pos {l : List ℝ} (h : ∀ x ∈ l, 0 < x) :
    listFSum (l.map maskedLog) = fin ((l.map Real.log).sum) := by
  induction l with
  | nil => simp [listFSum]
  | cons y ys ih =>
    show fadd (maskedLog y) (listFSum (ys.map maskedLog)) = _
    have hy : maskedLog y = fin (Real.log y) := by
      unfold maskedLog
      rw [if_pos (h y (List.mem_cons_self y ys))]
    rw [hy, ih (fun x hx => h x (List.mem_cons_of_mem y hx)), fadd_fin_fin,
      List.map_cons, List.sum_cons]

/-- C10: calc_geometric_mean is total on every real 2D array: it preserves
the row count, a row that contains a zero or negative entry maps to
exactly 0 (the guarded logarithm substitutes -inf, the row mean stays
-inf, and exp(-inf) is 0 — no error and no NaN), and a nonempty row of
strictly positive entries maps to exp of the mean of the logarithms. -/
theorem C10_geometric_mean_total (a : List (List ℝ)) (k : ℕ)
    (hk : k < a.length) :
    (calc_geometric_mean a).length = a.length ∧
    ((∃ x ∈ a.getD k [], x ≤ 0) →
      (calc_geometric_mean a).getD k nan = fin 0) ∧
    (a.getD k [] ≠ [] → (∀ x ∈ a.getD k [], 0 < x) →
      (calc_geometric_mean a).getD k nan =
        fin (Real.exp (((a.getD k []).map Real.log).sum /
          ((a.getD k []).length : ℝ)))) := by
  have hbase : (calc_geometric_mean a).getD k nan =
      fexp (fdiv (listFSum ((a.getD k []).map maskedLog))
        (fin ((a.getD k []).length : ℝ))) :=
    getD_map' _ a k hk nan []
  refine ⟨List.length_map a _, ?_, ?_⟩
  · intro hex
    rw [hbase, listFSum_maskedLog_ninf hex,
      fdiv_ninf_fin_nonneg (Nat.cast_nonneg _)]
    rfl
  · intro hne hall
    have hD : ((a.getD k []).length : ℝ) ≠ 0 := by
      rw [ne_eq, Nat.cast_eq_zero, ← ne_eq]
      exact List.length_pos.mpr hne |>.ne.symm
    rw [hbase, listFSum_maskedLog_pos hall, fdiv_fin_fin hD, fexp_fin]

/-- C10 witness: the totality statement evaluated on the concrete array
with rows (2, 3) and (0, 5): the first row maps to the geometric mean
exp((log 2 + log 3)/2) and the zero-containing second row maps to exactly 0. -/
theorem C10_witness :
    (calc_geometric_mean [[2, 3], [0, 5]]).length = 2 ∧
    (calc_geometric_mean [[2, 3], [0, 5]]).getD 1 nan = fin 0 ∧
    (calc_geometric_mean [[2, 3], [0, 5]]).getD 0 nan =
      fin (Real.exp ((([2, 3] : List ℝ).map Real.log).sum / 2)) := by
  refine ⟨?_, ?_, ?_⟩
  · have h := (C10_geometric_mean_total [[2, 3], [0, 5]] 0 (by norm_num)).1
    simpa using h
  · refine (C10_geometric_mean_total [[2, 3], [0, 5]] 1 (by norm_num)).2.1 ?_
    refine ⟨0, ?_, le_refl 0⟩
    simp [List.getD_cons_succ, List.getD_cons_zero]
  · have h := (C10_geometric_mean_total [[2, 3], [0, 5]] 0
      (by norm_num)).2.2 (by simp [List.getD_cons_zero])
      (by intro x hx
          simp only [List.getD_cons_zero] at hx
          rcases List.mem_cons.mp hx with rfl | hx2
          · norm_num
          · rcases List.mem_cons.mp hx2 with rfl | hx3
            · norm_num
            · simp at hx3)
    simpa using h
